import Mathlib

/-!
# Verification of the annoyance2 signal pipeline

Shallow embedding of the pulse scheduler, FFT peak analysis, window scaling
and fixed-point FFT of the `annoyance2` firmware, together with proofs of the
spec-level claims about them.

Two variants of the scheduler/analyzer exist in the repository:
* `Main.*` follows `src/bin/main/…` (the simpler variant);
* `Firmware.*` follows `firmware/src/…` (the holdoff-maintaining variant).

Machine integers are embedded as `Nat`/`Int` with explicit `% 2^32` (u32 tick
counters), `% 2^16` (u16) and sign wrapping (i16/i32) where the Rust code can
wrap.  Fallible paths return `Bool`/`Option`.
-/

/-- `2^32`: modulus of `u32` tick arithmetic (fugit `Instant`/`Duration` ticks). -/
def U32MOD : Nat := 4294967296

/-- `2^16`: modulus of `u16` arithmetic. -/
def U16MOD : Nat := 65536

/-- Wrapping `u32` subtraction `a.wrapping_sub(b)`, the wraparound-safe tick
difference used for all `Instant` comparisons. -/
def wsub (a b : Nat) : Nat := (a % U32MOD + U32MOD - b % U32MOD) % U32MOD

/-- Wrapping `u32` addition: `Instant + Duration` (fugit instants wrap by design). -/
def wadd (a b : Nat) : Nat := (a + b) % U32MOD

/-- `u32::scale_by(factor: u16)` from `math.rs`: `((x as u64 * f as u64) >> 16) as u32`.
For `x < 2^32` and `f < 2^16` the `u64` product never overflows and the final
`as u32` cast never truncates, so this is exact. -/
def scale_by_u32 (x f : Nat) : Nat := x * f / U16MOD

/-- `u16::scale_by(factor: u16)` from `math.rs`: `((x as u32 * f as u32) >> 16) as u16`. -/
def scale_by_u16 (x f : Nat) : Nat := x * f / U16MOD

/-- A scheduled pulse (`Pulse<Instant>` in `pulse.rs`): a period and the next
firing instant, both in ticks. -/
structure Pulse where
  period : Nat
  next : Nat
  deriving Repr, DecidableEq

/-- One step of the `try_consume_pulse` loop body applied to a single pulse:
a pulse whose `next` equals the fired instant `t` is advanced by one period
(`pulse.next += pulse.period`, a wrapping instant addition), any other pulse
is left unchanged. -/
def consume_step (t : Nat) (p : Pulse) : Pulse :=
  if p.next = t then { p with next := wadd p.next p.period } else p

/-- `Pulses::try_consume_pulse(at)` (identical in `src/bin/main/pulse.rs` and
`firmware/src/pulse.rs`): advances every pulse whose `next == at` by one
period and reports whether any matched (`Ok`/`Err` as `true`/`false`). -/
def try_consume_pulse (pulses : List Pulse) (t : Nat) : Bool × List Pulse :=
  pulses.foldr
    (fun p acc =>
      if p.next = t then (true, { p with next := wadd p.next p.period } :: acc.2)
      else (acc.1, p :: acc.2))
    (false, [])

namespace Main

/-- The fold inside `Pulses::next_pulse` of `src/bin/main/pulse.rs`:
`min_by_key` over the wrapping tick difference to `after`; Rust's
`min_by_key` keeps the first of equally-minimal elements, hence the strict
comparison. -/
def min_by_wrap_key (after : Nat) (p : Pulse) (ps : List Pulse) : Pulse :=
  ps.foldl (fun best q => if wsub q.next after < wsub best.next after then q else best) p

/-- `Pulses::next_pulse(after)` of `src/bin/main/pulse.rs`: the `next` of the
pulse minimizing `pulse.next.ticks().wrapping_sub(after.ticks())`, or `none`
for an empty table. -/
def next_pulse (pulses : List Pulse) (after : Nat) : Option Nat :=
  match pulses with
  | [] => none
  | p :: ps => some (min_by_wrap_key after p ps).next

/-- A `Peak` as consumed by `schedule_pulses` in `src/bin/main`: a validated
nonzero frequency in Hz (`NonZeroU16`) and a phase as a `u16` scaling factor. -/
structure Peak where
  freq : Nat
  phase : Nat
  deriving Repr, DecidableEq

/-- `SYSCLK_HZ`: tick rate of `time::Instant`/`Duration` (48 MHz, `config.rs`). -/
def SYSCLK_HZ : Nat := 48000000

/-- `Peak::period()`: `self.freq().into_duration()`.  Models the fugit
library conversion from a rate of `freq` Hz to a duration in `1/SYSCLK_HZ`
ticks, which rounds the tick count down: `SYSCLK_HZ / freq` ticks. -/
def Peak.period (pk : Peak) : Nat := SYSCLK_HZ / pk.freq

/-- `Peak::phase_offset()`: the period's tick count scaled by the phase factor
(`period_ticks.scale_by(self.phase)`, from `fft/analysis.rs`). -/
def Peak.phase_offset (pk : Peak) : Nat := scale_by_u32 pk.period pk.phase

/-- `schedule_pulses(peaks, now, pulses_out)` of `src/bin/main/pulse.rs`:
each peak becomes a pulse with its period and
`next = now + phase_offset + period` (wrapping instant additions). -/
def schedule_pulses (peaks : List Peak) (now : Nat) : List Pulse :=
  peaks.map fun pk =>
    { period := pk.period, next := wadd (wadd now pk.phase_offset) pk.period }

end Main

namespace Firmware

/-- Pulse-scheduling constants from `firmware/src/config.rs` (the config module
itself is not part of the sources at hand, so the two constants are kept as
parameters): `config::pulse::MIN_HOLDOFF` in ticks and
`config::pulse::HOLDOFF_RATIO` as a raw `u16` scaling factor. -/
structure PulseCfg where
  minHoldoff : Nat
  holdoffRatio : Nat
  deriving Repr, DecidableEq

/-- The live pulse table of `firmware/src/pulse.rs` (`struct Pulses`): the
scheduled pulses plus the rolling `holdoff_until` instant. -/
structure Pulses where
  pulses : List Pulse
  holdoffUntil : Nat
  deriving Repr, DecidableEq

/-- The rescheduling loop inside `Pulses::next_pulse`:
`while offset < holdoff { pulse.next += pulse.period; offset += pulse.period }`.
`next` advances by wrapping instant addition; `offset` is a `Duration`, whose
additions are kept exact here (the theorems below bound them below `2^32`, where
this agrees with the `u32` tick arithmetic).  The Rust loop never terminates
for a zero period; every period produced by the code is positive, and the
guard returning early on `period = 0` keeps the function total without
affecting any reachable input. -/
def resched (period holdoff next offset : Nat) : Nat × Nat :=
  if offset < holdoff then
    if 0 < period then resched period holdoff (wadd next period) (offset + period)
    else (next, offset)
  else (next, offset)
termination_by holdoff - offset
decreasing_by omega

/-- One iteration of the selection loop in `Pulses::next_pulse`: reschedule
the pulse past the holdoff, append its updated form to the processed list,
and keep it as the current minimum when its offset is strictly below the
minimum so far (`if offset < min_offset`, so the first of equal offsets
wins). -/
def select_step (holdoff after : Nat) (acc : List Pulse × Nat × Pulse) (p : Pulse) :
    List Pulse × Nat × Pulse :=
  let offset := wsub p.next after
  let r := resched p.period holdoff p.next offset
  let p' : Pulse := { period := p.period, next := r.1 }
  if r.2 < acc.2.1 then (acc.1 ++ [p'], r.2, p')
  else (acc.1 ++ [p'], acc.2.1, acc.2.2)

/-- `Pulses::next_pulse(after)` of `firmware/src/pulse.rs`: computes the
current holdoff from the rolling `holdoff_until` (wraparound-safe, treating
differences of at least `u32::MAX / 2` as already past), floors it at
`MIN_HOLDOFF`, pushes every pulse forward by its own period until it clears
the holdoff, selects the pulse with the smallest resulting offset (first wins
ties; the selection starts from a dummy pulse at instant 0 with `min_offset =
u32::MAX`), updates `holdoff_until` to the chosen instant plus the chosen
period scaled by `HOLDOFF_RATIO`, and returns the chosen instant. -/
def next_pulse (cfg : PulseCfg) (s : Pulses) (after : Nat) : Option Nat × Pulses :=
  if s.pulses = [] then (none, s)
  else
    let raw := wsub s.holdoffUntil after
    let holdoff0 := if raw < 2147483647 then raw else 0
    let holdoff := max holdoff0 cfg.minHoldoff
    let res := s.pulses.foldl (select_step holdoff after)
      ([], 4294967295, { period := 0, next := 0 })
    (some res.2.2.next,
     { pulses := res.1,
       holdoffUntil := wadd res.2.2.next (scale_by_u32 res.2.2.period cfg.holdoffRatio) })

/-- `UnadjustedPulses` entries (`Pulse<Duration>`): a period and a phase
offset, both durations in ticks. -/
structure UPulse where
  period : Nat
  offset : Nat
  deriving Repr, DecidableEq

/-- `schedule_pulses(peaks, pulses_out)` of `firmware/src/pulse.rs`: each peak
becomes an unadjusted pulse holding its period and phase offset.  Peaks are
abstracted to the `(period, phase_offset)` pair they contribute
(`peak.period()` and `peak.phase_offset()` from `firmware/src/fft/analysis.rs`). -/
def schedule_pulses (peaks : List UPulse) : List UPulse := peaks

/-- `Pulses::replace_with_adjusted(unadjusted, at)`: anchors every unadjusted
pulse to the instant `at` (`next = at + pulse.next`, a wrapping instant
addition), leaving `holdoff_until` untouched. -/
def replace_with_adjusted (s : Pulses) (unadjusted : List UPulse) (t : Nat) : Pulses :=
  { pulses := unadjusted.map fun u => { period := u.period, next := wadd t u.offset },
    holdoffUntil := s.holdoffUntil }

end Firmware

/-! ## Wrapping-arithmetic facts -/

lemma wsub_lt_mod (a b : Nat) : wsub a b < U32MOD := by
  unfold wsub U32MOD; omega

lemma wadd_lt_mod (a b : Nat) : wadd a b < U32MOD := by
  unfold wadd U32MOD; omega

lemma wsub_wadd_right (a b c : Nat) : wsub (wadd a c) b = (wsub a b + c) % U32MOD := by
  unfold wsub wadd U32MOD; omega

lemma wadd_eq_self_iff (t c : Nat) (ht : t < U32MOD) : wadd t c = t ↔ c % U32MOD = 0 := by
  unfold wadd U32MOD at *; omega

lemma wsub_wadd_cancel (t c : Nat) (hc : c < U32MOD) : wsub (wadd t c) t = c := by
  unfold wsub wadd U32MOD at *; omega

/-! ## C1: `next_pulse` of the simple variant minimizes the wrapping difference -/

lemma min_by_wrap_key_spec (after : Nat) (p : Pulse) (ps : List Pulse) :
    (Main.min_by_wrap_key after p ps = p ∨ Main.min_by_wrap_key after p ps ∈ ps) ∧
    wsub (Main.min_by_wrap_key after p ps).next after ≤ wsub p.next after ∧
    ∀ q ∈ ps, wsub (Main.min_by_wrap_key after p ps).next after ≤ wsub q.next after := by
  induction ps generalizing p with
  | nil => simp [Main.min_by_wrap_key]
  | cons q qs ih =>
    have hstep : Main.min_by_wrap_key after p (q :: qs) =
        Main.min_by_wrap_key after (if wsub q.next after < wsub p.next after then q else p) qs :=
      rfl
    by_cases hlt : wsub q.next after < wsub p.next after
    · have h := ih q
      rw [hstep, if_pos hlt]
      refine ⟨?_, ?_, ?_⟩
      · rcases h.1 with h1 | h1
        · exact Or.inr (by simp [h1])
        · exact Or.inr (by simp [h1])
      · exact le_trans h.2.1 (le_of_lt hlt)
      · intro r hr
        rcases List.mem_cons.mp hr with rfl | hr
        · exact h.2.1
        · exact h.2.2 r hr
    · have h := ih p
      rw [hstep, if_neg hlt]
      refine ⟨?_, h.2.1, ?_⟩
      · rcases h.1 with h1 | h1
        · exact Or.inl h1
        · exact Or.inr (by simp [h1])
      · intro r hr
        rcases List.mem_cons.mp hr with rfl | hr
        · exact le_trans h.2.1 (le_of_not_lt hlt)
        · exact h.2.2 r hr

/-- C1: for every pulse table and instant `after`, the simple variant's
`next_pulse` returns `none` on an empty table, and otherwise returns the
`next` instant of a pulse of the table minimizing the wrapping unsigned tick
difference `next.ticks().wrapping_sub(after.ticks())`; in particular a
candidate just past the counter's wrap point is reported as the upcoming
pulse (smallest wrapping offset), never as far in the past. -/
theorem next_pulse_returns_min_wrapping_diff (pulses : List Pulse) (after : Nat) :
    (pulses = [] → Main.next_pulse pulses after = none) ∧
    (pulses ≠ [] → ∃ p ∈ pulses, Main.next_pulse pulses after = some p.next ∧
      ∀ q ∈ pulses, wsub p.next after ≤ wsub q.next after) ∧
    (∀ cfg s, s.pulses = [] → Firmware.next_pulse cfg s after = (none, s)) := by
  refine ⟨?_, ?_, ?_⟩
  · rintro rfl; rfl
  · intro hne
    match pulses with
    | [] => exact absurd rfl hne
    | p :: ps =>
      have h := min_by_wrap_key_spec after p ps
      refine ⟨Main.min_by_wrap_key after p ps, ?_, rfl, ?_⟩
      · rcases h.1 with h1 | h1
        · rw [h1]; exact List.mem_cons_self p ps
        · exact List.mem_cons_of_mem p h1
      · intro q hq
        rcases List.mem_cons.mp hq with rfl | hq
        · exact h.2.1
        · exact h.2.2 q hq
  · intro cfg s hs
    rw [Firmware.next_pulse, if_pos hs]

/-- Witness for C1, at the wraparound example of the spec: with
`after = 0xFFFFFFF0`, a candidate at `next = 0x00000010` (wrapping offset
`0x20`) is preferred over a pulse in the recent past. -/
theorem next_pulse_returns_min_wrapping_diff_witness :
    ∃ p ∈ [Pulse.mk 100 4294967000, Pulse.mk 100 16],
      Main.next_pulse [Pulse.mk 100 4294967000, Pulse.mk 100 16] 4294967280 = some p.next ∧
      ∀ q ∈ [Pulse.mk 100 4294967000, Pulse.mk 100 16],
        wsub p.next 4294967280 ≤ wsub q.next 4294967280 :=
  (next_pulse_returns_min_wrapping_diff [Pulse.mk 100 4294967000, Pulse.mk 100 16]
    4294967280).2.1 (by decide)
/-! ## C2: `try_consume_pulse` advances exactly the matching pulses -/

lemma try_consume_pulse_eq (pulses : List Pulse) (t : Nat) :
    try_consume_pulse pulses t =
      (pulses.any (fun p => p.next = t), pulses.map (consume_step t)) := by
  induction pulses with
  | nil => rfl
  | cons p ps ih =>
    show (if p.next = t then _ else _) = _
    rw [show (List.foldr _ (false, ([] : List Pulse)) ps) = try_consume_pulse ps t from rfl, ih]
    by_cases h : p.next = t <;>
      simp [h, consume_step, List.any_cons]

lemma map_eq_self_of {α : Type} (f : α → α) (l : List α) (h : ∀ x ∈ l, f x = x) :
    l.map f = l := by
  induction l with
  | nil => rfl
  | cons x xs ih =>
    simp only [List.map_cons]
    rw [h x (by simp), ih fun y hy => h y (by simp [hy])]

/-- C2: `try_consume_pulse(at)` advances the `next` of exactly the pulses with
`next == at` by one period (`consume_step`), leaves every other pulse
unchanged, returns `Ok` iff at least one pulse matched; and when all periods
are nonzero `u32` durations, an immediate second call with the same `at`
matches nothing, returns `Err`, and advances nothing. -/
theorem try_consume_pulse_exact_and_no_double_advance (pulses : List Pulse) (t : Nat) :
    (try_consume_pulse pulses t).2 = pulses.map (consume_step t) ∧
    ((try_consume_pulse pulses t).1 = true ↔ ∃ p ∈ pulses, p.next = t) ∧
    ((∀ p ∈ pulses, 0 < p.period ∧ p.period < U32MOD) → t < U32MOD →
      (try_consume_pulse pulses t).1 = true →
      try_consume_pulse (try_consume_pulse pulses t).2 t =
        (false, (try_consume_pulse pulses t).2)) := by
  refine ⟨by rw [try_consume_pulse_eq], ?_, ?_⟩
  · rw [try_consume_pulse_eq]
    simp [List.any_eq_true]
  · intro hper ht _
    have hnone : ∀ q ∈ (try_consume_pulse pulses t).2, q.next ≠ t := by
      rw [try_consume_pulse_eq]
      intro q hq
      rcases List.mem_map.mp hq with ⟨p, hp, rfl⟩
      by_cases hmatch : p.next = t
      · have h1 := (hper p hp).1
        have h2 := (hper p hp).2
        simp only [consume_step, if_pos hmatch, hmatch]
        intro hcontra
        have := (wadd_eq_self_iff t p.period ht).mp hcontra
        unfold U32MOD at h2 this
        omega
      · simp [consume_step, hmatch]
    have hmap : ((try_consume_pulse pulses t).2).map (consume_step t) =
        (try_consume_pulse pulses t).2 :=
      map_eq_self_of _ _ fun q hq => by
        simp [consume_step, hnone q hq]
    have hany : ((try_consume_pulse pulses t).2).any (fun p => p.next = t) = false := by
      simp only [List.any_eq_false, decide_eq_true_eq]
      exact hnone
    rw [try_consume_pulse_eq ((try_consume_pulse pulses t).2) t, hany, hmap]

/-- Witness for C2: a one-pulse table fired at its scheduled instant 10 is
advanced; the immediate second consume at 10 fails and changes nothing. -/
theorem try_consume_pulse_exact_and_no_double_advance_witness :
    (∀ p ∈ [Pulse.mk 5 10], 0 < p.period ∧ p.period < U32MOD) ∧
    try_consume_pulse (try_consume_pulse [Pulse.mk 5 10] 10).2 10 =
      (false, (try_consume_pulse [Pulse.mk 5 10] 10).2) :=
  ⟨by decide,
   (try_consume_pulse_exact_and_no_double_advance [Pulse.mk 5 10] 10).2.2
     (by decide) (by decide) (by decide)⟩

/-! ## C3: the holdoff-maintaining `next_pulse` enforces the minimum spacing -/

lemma wadd_wadd (a b c : Nat) : wadd (wadd a b) c = wadd a (b + c) := by
  unfold wadd U32MOD; omega

lemma wadd_zero_of_lt (a : Nat) (h : a < U32MOD) : wadd a 0 = a := by
  unfold wadd U32MOD at *; omega

lemma resched_spec (period holdoff : Nat) (hp : 0 < period) :
    ∀ fuel offset next, holdoff - offset ≤ fuel → next < U32MOD →
      ∃ k, Firmware.resched period holdoff next offset =
            (wadd next (k * period), offset + k * period) ∧
          holdoff ≤ offset + k * period ∧
          offset + k * period ≤ max offset (holdoff + period - 1) := by
  intro fuel
  induction fuel with
  | zero =>
    intro offset next hfuel hnext
    refine ⟨0, ?_, by omega, by omega⟩
    rw [Firmware.resched]
    simp [Nat.not_lt.mpr (by omega : holdoff ≤ offset), wadd_zero_of_lt next hnext]
  | succ n ih =>
    intro offset next hfuel hnext
    by_cases hlt : offset < holdoff
    · obtain ⟨k, hr, hlb, hub⟩ :=
        ih (offset + period) (wadd next period) (by omega) (wadd_lt_mod _ _)
      have hk : (k + 1) * period = period + k * period := by ring
      refine ⟨k + 1, ?_, by rw [hk]; omega, ?_⟩
      · rw [Firmware.resched, if_pos hlt, if_pos hp, hr, wadd_wadd, hk, Nat.add_assoc]
      · rw [hk]
        have h2 : offset + period ≤ holdoff + period - 1 := by omega
        have h3 : (offset + period) ⊔ (holdoff + period - 1) = holdoff + period - 1 :=
          max_eq_right h2
        rw [h3] at hub
        exact le_trans (by omega) (le_max_right _ _)
    · refine ⟨0, ?_, by omega, by omega⟩
      rw [Firmware.resched]
      simp [hlt, wadd_zero_of_lt next hnext]

/-- The per-pulse effect of one `next_pulse` selection pass. -/
def proc_one (holdoff after : Nat) (p : Pulse) : Pulse :=
  { period := p.period, next := (Firmware.resched p.period holdoff p.next (wsub p.next after)).1 }

lemma foldl_select_done (holdoff after : Nat) (ps : List Pulse)
    (acc : List Pulse × Nat × Pulse) :
    (ps.foldl (Firmware.select_step holdoff after) acc).1 =
      acc.1 ++ ps.map (proc_one holdoff after) := by
  induction ps generalizing acc with
  | nil => simp
  | cons p rest ih =>
    rw [List.foldl_cons, ih]
    by_cases h : (Firmware.resched p.period holdoff p.next (wsub p.next after)).2 < acc.2.1 <;>
      simp [Firmware.select_step, h, proc_one, List.append_assoc]

lemma proc_one_spec (holdoff after : Nat) (p : Pulse) (hh : holdoff ≤ 2147483646)
    (hp : 0 < p.period) (hper : p.period ≤ 2147483648) (hnext : p.next < U32MOD)
    (hoff : wsub p.next after < 4294967295) :
    (proc_one holdoff after p).period = p.period ∧
    (∃ k, (proc_one holdoff after p).next = wadd p.next (k * p.period)) ∧
    holdoff ≤ (Firmware.resched p.period holdoff p.next (wsub p.next after)).2 ∧
    (Firmware.resched p.period holdoff p.next (wsub p.next after)).2 < 4294967295 ∧
    wsub (proc_one holdoff after p).next after =
      (Firmware.resched p.period holdoff p.next (wsub p.next after)).2 := by
  obtain ⟨k, hr, hlb, hub⟩ :=
    resched_spec p.period holdoff hp holdoff (wsub p.next after) p.next (by omega) hnext
  have hmax : max (wsub p.next after) (holdoff + p.period - 1) < 4294967295 := by
    have := hoff
    omega
  have hofflt : wsub p.next after + k * p.period < 4294967295 := by omega
  refine ⟨rfl, ⟨k, by rw [proc_one, hr]⟩, ?_, ?_, ?_⟩
  · rw [hr]; exact hlb
  · rw [hr]; exact hofflt
  · show wsub (Firmware.resched p.period holdoff p.next (wsub p.next after)).1 after = _
    rw [hr, wsub_wadd_right]
    have : wsub p.next after + k * p.period < U32MOD := by unfold U32MOD; omega
    rw [Nat.mod_eq_of_lt this]

lemma foldl_select_chosen (holdoff after : Nat) (hh : holdoff ≤ 2147483646)
    (ps : List Pulse)
    (hps : ∀ p ∈ ps, 0 < p.period ∧ p.period ≤ 2147483648 ∧ p.next < U32MOD ∧
      wsub p.next after < 4294967295)
    (acc : List Pulse × Nat × Pulse)
    (hub : acc.2.1 ≤ 4294967295)
    (hmem : acc.2.1 < 4294967295 →
      acc.2.2 ∈ acc.1 ∧ holdoff ≤ wsub acc.2.2.next after) :
    (ps.foldl (Firmware.select_step holdoff after) acc).2.1 ≤ acc.2.1 ∧
    ((ps.foldl (Firmware.select_step holdoff after) acc).2.1 < 4294967295 →
      (ps.foldl (Firmware.select_step holdoff after) acc).2.2 ∈
        (ps.foldl (Firmware.select_step holdoff after) acc).1 ∧
      holdoff ≤ wsub (ps.foldl (Firmware.select_step holdoff after) acc).2.2.next after) ∧
    (ps ≠ [] → (ps.foldl (Firmware.select_step holdoff after) acc).2.1 < 4294967295) := by
  induction ps generalizing acc with
  | nil => exact ⟨le_refl _, hmem, fun h => absurd rfl h⟩
  | cons p rest ih =>
    obtain ⟨hp, hper, hnext, hoff⟩ := hps p (by simp)
    obtain ⟨-, -, hlb, hlt95, hwsub⟩ := proc_one_spec holdoff after p hh hp hper hnext hoff
    rw [List.foldl_cons]
    set r := Firmware.resched p.period holdoff p.next (wsub p.next after) with hrdef
    have hstep : Firmware.select_step holdoff after acc p =
        if r.2 < acc.2.1 then (acc.1 ++ [proc_one holdoff after p], r.2, proc_one holdoff after p)
        else (acc.1 ++ [proc_one holdoff after p], acc.2.1, acc.2.2) := rfl
    by_cases hcmp : r.2 < acc.2.1
    · rw [hstep, if_pos hcmp]
      have h2 := ih (fun q hq => hps q (by simp [hq]))
        (acc.1 ++ [proc_one holdoff after p], r.2, proc_one holdoff after p)
        (by simpa using le_of_lt hlt95)
        (by
          intro _
          refine ⟨by simp [proc_one], ?_⟩
          simpa [hwsub] using hlb)
      refine ⟨le_trans h2.1 (le_of_lt hcmp), h2.2.1, fun _ => ?_⟩
      exact lt_of_le_of_lt h2.1 hlt95
    · rw [hstep, if_neg hcmp]
      have hacclt : acc.2.1 < 4294967295 := by omega
      have h2 := ih (fun q hq => hps q (by simp [hq]))
        (acc.1 ++ [proc_one holdoff after p], acc.2.1, acc.2.2)
        hub
        (by
          intro _
          obtain ⟨hm, hho⟩ := hmem hacclt
          exact ⟨by simp [hm], hho⟩)
      refine ⟨h2.1, h2.2.1, fun _ => lt_of_le_of_lt h2.1 hacclt⟩

/-- C3: the holdoff-maintaining scheduler.  For every pulse table whose periods
are positive and bounded `u32` durations (and no pulse sits exactly one tick
in the past, where the selection would saturate), a successful
`next_pulse(after)` call (a) leaves every pulse advanced by a whole number of
its own periods with a final offset from `after` of at least the configured
minimum holdoff, (b) returns the `next` of one of those pulses and sets
`holdoff_until` to that instant plus the pulse's period scaled by the holdoff
ratio, and (c) returns an instant at least `MIN_HOLDOFF` ticks past `after` —
so successive calls, each passing the previously returned instant as `after`,
never return two instants closer together than the configured minimum
spacing. -/
theorem next_pulse_holdoff_spacing (cfg : Firmware.PulseCfg) (s : Firmware.Pulses)
    (after t : Nat) (s' : Firmware.Pulses)
    (hmin : cfg.minHoldoff ≤ 2147483646)
    (hps : ∀ p ∈ s.pulses, 0 < p.period ∧ p.period ≤ 2147483648 ∧ p.next < U32MOD ∧
      wsub p.next after < 4294967295)
    (hrun : Firmware.next_pulse cfg s after = (some t, s')) :
    cfg.minHoldoff ≤ wsub t after ∧
    (∃ p ∈ s'.pulses, t = p.next ∧
      s'.holdoffUntil = wadd p.next (scale_by_u32 p.period cfg.holdoffRatio)) ∧
    List.Forall₂ (fun p q => q.period = p.period ∧
      (∃ k, q.next = wadd p.next (k * p.period)) ∧
      cfg.minHoldoff ≤ wsub q.next after) s.pulses s'.pulses := by
  by_cases hne : s.pulses = []
  · rw [Firmware.next_pulse, if_pos hne] at hrun
    exact absurd (congrArg Prod.fst hrun) (by simp)
  · rw [Firmware.next_pulse, if_neg hne] at hrun
    set holdoff := max (if wsub s.holdoffUntil after < 2147483647
        then wsub s.holdoffUntil after else 0) cfg.minHoldoff with hhdef
    have hhub : holdoff ≤ 2147483646 := by
      rw [hhdef]
      have h1 : wsub s.holdoffUntil after < U32MOD := wsub_lt_mod _ _
      by_cases hc : wsub s.holdoffUntil after < 2147483647 <;> simp [hc] <;> omega
    have hhlb : cfg.minHoldoff ≤ holdoff := le_max_right _ _
    set res := s.pulses.foldl (Firmware.select_step holdoff after)
      ([], 4294967295, { period := 0, next := 0 }) with hres
    have hrunt : t = res.2.2.next ∧
        s' = { pulses := res.1,
               holdoffUntil := wadd res.2.2.next
                 (scale_by_u32 res.2.2.period cfg.holdoffRatio) } := by
      have h1 := congrArg Prod.fst hrun
      have h2 := congrArg Prod.snd hrun
      simp only at h1 h2
      exact ⟨(Option.some.injEq _ _).mp h1 |>.symm, h2.symm⟩
    obtain ⟨ht, hs'⟩ := hrunt
    have hfold := foldl_select_chosen holdoff after hhub s.pulses hps
      ([], 4294967295, { period := 0, next := 0 }) (le_refl _)
      (fun h => absurd h (lt_irrefl _))
    have hlt := hfold.2.2 hne
    obtain ⟨hmem, hho⟩ := hfold.2.1 hlt
    have hdone := foldl_select_done holdoff after s.pulses
      ([], 4294967295, { period := 0, next := 0 })
    rw [List.nil_append] at hdone
    refine ⟨?_, ?_, ?_⟩
    · rw [ht]; exact le_trans hhlb hho
    · exact ⟨res.2.2, by rw [hs']; exact hmem, ht, by rw [hs']⟩
    · rw [hs']
      show List.Forall₂ _ s.pulses res.1
      rw [hdone, List.forall₂_map_right_iff, List.forall₂_same]
      intro p hp
      obtain ⟨h1, h2, h3, h4⟩ := hps p hp
      obtain ⟨hpa, hpb, hpc, -, hpe⟩ := proc_one_spec holdoff after p hhub h1 h2 h3 h4
      refine ⟨hpa, hpb, le_trans hhlb ?_⟩
      rw [hpe]; exact hpc

/-- Witness for C3: a single 1000-tick pulse naively due at offset 50 under a
100-tick minimum holdoff is pushed to 1050, at least `MIN_HOLDOFF` past
`after = 0`, and `holdoff_until` becomes `1050 + 1000/2 = 1550`. -/
theorem next_pulse_holdoff_spacing_witness :
    Firmware.next_pulse ⟨100, 32768⟩ ⟨[⟨1000, 50⟩], 0⟩ 0 =
      (some 1050, ⟨[⟨1000, 1050⟩], 1550⟩) ∧
    (100 : Nat) ≤ wsub 1050 0 := by
  have hev : Firmware.next_pulse ⟨100, 32768⟩ ⟨[⟨1000, 50⟩], 0⟩ 0 =
      (some 1050, ⟨[⟨1000, 1050⟩], 1550⟩) := by
    have h1 : Firmware.resched 1000 100 50 50 = (1050, 1050) := by
      rw [Firmware.resched]
      norm_num [wadd, U32MOD]
      rw [Firmware.resched]
      norm_num
    rw [Firmware.next_pulse]
    simp only [List.foldl_cons, List.foldl_nil, Firmware.select_step]
    norm_num [wsub, U32MOD]
    rw [h1]
    norm_num [wadd, scale_by_u32, U32MOD, U16MOD]
  exact ⟨hev,
    (next_pulse_holdoff_spacing ⟨100, 32768⟩ ⟨[⟨1000, 50⟩], 0⟩ 0 1050
      ⟨[⟨1000, 1050⟩], 1550⟩ (by norm_num) (by decide) hev).1⟩

/-! ## C4: first pulse of a freshly scheduled single-peak table -/

/-- C4 counterexample: a single peak at 1000 Hz (period 48000 ticks) with a
small nonzero phase factor, scheduled directly with `now = t = 0`, yields a
first `next_pulse(t)` instant at offset 48001 — strictly more than one
period from the anchor, refuting "within one period". -/
theorem schedule_single_peak_counterexample :
    Main.next_pulse (Main.schedule_pulses [⟨1000, 2⟩] 0) 0 = some 48001 ∧
    Main.Peak.period ⟨1000, 2⟩ = 48000 ∧
    ¬(wsub 48001 0 ≤ Main.Peak.period ⟨1000, 2⟩) := by
  decide

/-- C4 (amended): for a table built by `schedule_pulses` from a single peak
anchored at `t`, the first `next_pulse(t)` result lies within two periods of
`t` (the offset is exactly `period + phase_offset`, and the phase-derived
offset is strictly less than one period), rather than within one period. -/
theorem schedule_single_peak_first_pulse_within_two_periods
    (freq phase t : Nat) (h1 : 1 ≤ freq) (h2 : freq ≤ 65535) (h3 : phase < 65536) :
    ∃ nxt, Main.next_pulse (Main.schedule_pulses [⟨freq, phase⟩] t) t = some nxt ∧
      Main.Peak.period ⟨freq, phase⟩ ≤ wsub nxt t ∧
      wsub nxt t < 2 * Main.Peak.period ⟨freq, phase⟩ := by
  have hPl : 1 ≤ Main.Peak.period ⟨freq, phase⟩ := by
    show 1 ≤ 48000000 / freq
    exact (Nat.one_le_div_iff (by omega)).mpr (by omega)
  have hPu : Main.Peak.period ⟨freq, phase⟩ ≤ 48000000 := by
    show 48000000 / freq ≤ 48000000
    exact Nat.div_le_self _ _
  have hpo : Main.Peak.phase_offset ⟨freq, phase⟩ < Main.Peak.period ⟨freq, phase⟩ := by
    show Main.Peak.period ⟨freq, phase⟩ * phase / 65536 < Main.Peak.period ⟨freq, phase⟩
    refine Nat.div_lt_of_lt_mul ?_
    rw [Nat.mul_comm 65536]
    exact mul_lt_mul_of_pos_left h3 (by omega)
  have hsum : Main.Peak.phase_offset ⟨freq, phase⟩ + Main.Peak.period ⟨freq, phase⟩
      < U32MOD := by
    unfold U32MOD; omega
  refine ⟨wadd (wadd t (Main.Peak.phase_offset ⟨freq, phase⟩))
      (Main.Peak.period ⟨freq, phase⟩), rfl, ?_, ?_⟩
  · rw [wadd_wadd, wsub_wadd_cancel t _ hsum]
    omega
  · rw [wadd_wadd, wsub_wadd_cancel t _ hsum]
    omega

/-- Witness for the amended C4 at the counterexample's input. -/
theorem schedule_single_peak_first_pulse_within_two_periods_witness :
    ∃ nxt, Main.next_pulse (Main.schedule_pulses [⟨1000, 2⟩] 0) 0 = some nxt ∧
      Main.Peak.period ⟨1000, 2⟩ ≤ wsub nxt 0 ∧
      wsub nxt 0 < 2 * Main.Peak.period ⟨1000, 2⟩ :=
  schedule_single_peak_first_pulse_within_two_periods 1000 2 0
    (by decide) (by decide) (by decide)

/-! ## C8: the rectangle window scaling step -/

/-- Truncation of an integer to `i16` (two's-complement wrap), as performed by
Rust `as i16` casts and wrapping `i16` arithmetic. -/
def wrapI16 (x : Int) : Int := (x + 32768) % 65536 - 32768

/-- `i16::scale_by(factor: u16)` from `math.rs`:
`((self as i32 * by.0 as i32) >> 16) as i16`.  For `i16` inputs and `u16`
factors the `i32` product is exact and the arithmetic right shift is floor
division by `2^16` (Euclidean division here, the divisor being positive);
the final cast back to `i16` can never truncate for such inputs. -/
def scale_by_i16 (x f : Int) : Int := x * f / 65536

/-- `config::adc::RESOLUTION_BITS = 12`: the pre-shift in
`fft/window.rs::apply_with_scaling` is `x << (16 - 12)`, a wrapping `i16`
shift, i.e. multiplication by 16 followed by `i16` truncation. -/
def pre_shift (x : Int) : Int := wrapI16 (x * 16)

/-- The `u16::MAX` coefficient used for every index of the `RECTANGLE` window
table (`fft/window.rs`). -/
def RECTANGLE_FACTOR : Int := 65535

/-- `apply_with_scaling` of `fft/window.rs` with the rectangle window
selected: each sample is pre-shifted to the full `i16` range and then scaled
by the all-ones factor. -/
def apply_with_scaling_rectangle (data : List Int) : List Int :=
  data.map fun x => scale_by_i16 (pre_shift x) RECTANGLE_FACTOR

/-- C8 counterexample: scaling by the all-ones factor `u16::MAX` is *not* the
identity: the pre-shifted sample 16 (ADC sample 1) becomes 15, so the
rectangle window does not leave pre-shifted samples unchanged. -/
theorem rectangle_window_not_identity :
    pre_shift 1 = 16 ∧
    apply_with_scaling_rectangle [1] = [15] ∧
    ¬(scale_by_i16 (pre_shift 1) RECTANGLE_FACTOR = pre_shift 1) := by
  refine ⟨by decide, ?_, by decide⟩
  rfl

/-- C8 (amended): scaling a value by the all-ones factor `u16::MAX` is an
off-by-one floor: it returns `x - 1` for positive `x` and `x` for zero or
negative `x`; applying the rectangle window therefore maps every pre-shifted
sample to that value instead of leaving it untouched. -/
theorem rectangle_window_off_by_one (data : List Int) :
    apply_with_scaling_rectangle data =
      data.map fun x => if 0 < pre_shift x then pre_shift x - 1 else pre_shift x := by
  unfold apply_with_scaling_rectangle
  refine List.map_congr_left fun x _ => ?_
  have hlo : -32768 ≤ pre_shift x := by unfold pre_shift wrapI16; omega
  have hhi : pre_shift x ≤ 32767 := by unfold pre_shift wrapI16; omega
  unfold scale_by_i16 RECTANGLE_FACTOR
  split <;> omega

/-! ## C9: the fixed-point radix-2 FFT -/

/-- `isolate_highest_set_bit` of `fft/imp.rs`:
`(1 << (usize::BITS - 1)) >> x.leading_zeros()`, the highest set bit of `x`.
The Rust expression is only evaluated on nonzero arguments (the decimation
loop never reaches `mr = N - 1` before its final iteration); the zero case is
guarded off to keep the definition total. -/
def isolate_highest_set_bit (x : Nat) : Nat :=
  if x = 0 then 0 else 2 ^ Nat.log2 x

/-- Total pairwise swap used by the decimation re-ordering (`f.swap(m, mr)`,
whose indices are always in bounds). -/
def aswap (a : Array (Int × Int)) (i j : Nat) : Array (Int × Int) :=
  let vi := a.getD i (0, 0)
  let vj := a.getD j (0, 0)
  (a.setD i vj).setD j vi

/-- One iteration of the bit-reversal loop of `radix2` (`for m in 1..N`): the
reversed counter `mr` is advanced and the pair `(m, mr)` is swapped when
`mr > m`. -/
def bitrev_step (N : Nat) (acc : Nat × Array (Int × Int)) (m : Nat) :
    Nat × Array (Int × Int) :=
  let l := isolate_highest_set_bit (N - 1 - acc.1)
  let mr := (acc.1 &&& (l - 1)) + l
  if m < mr then (mr, aswap acc.2 m mr) else (mr, acc.2)

/-- The butterfly body of `run_stage` at indices `i` and `j = i + stride`:
twiddle multiply in `i32` with round-to-nearest (`+ (1 << 14)` then `>> 15`,
an arithmetic shift, i.e. floor division) truncated to `i16`, and the
add/sub butterfly on the `>> SCALE`-scaled values with wrapping `i16`
arithmetic. -/
def butterfly (wr wi : Int) (arr : Array (Int × Int)) (i j : Nat) :
    Array (Int × Int) :=
  let fj := arr.getD j (0, 0)
  let fi := arr.getD i (0, 0)
  let tr := wrapI16 ((wr * fj.1 - wi * fj.2 + 16384) / 32768)
  let ti := wrapI16 ((wr * fj.2 + wi * fj.1 + 16384) / 32768)
  let qr := fi.1 / 2
  let qi := fi.2 / 2
  ((arr.setD j (wrapI16 (qr - tr), wrapI16 (qi - ti))).setD i
    (wrapI16 (qr + tr), wrapI16 (qi + ti)))

/-- `(m..N).step_by(step)`: the ascending index list `m, m + step, …` below
`N` (the zero-step case never occurs; `step = 2 * stride ≥ 2`). -/
def step_by (i N step : Nat) : List Nat :=
  if i < N then
    if 0 < step then i :: step_by (i + step) N step else [i]
  else []
termination_by N - i
decreasing_by omega

/-- `run_stage::<STAGE>` of `fft/imp.rs`: for each `m` below the stride,
compute the twiddle pair from the sine table (with `>> SCALE` applied to the
raw `i16` entries, and the `i16`-wrapping negation for `wi`), then run the
butterfly over indices `m, m + step, …`. -/
def run_stage (sinTable : Nat → Int) (NLOG2 N stage : Nat)
    (arr0 : Array (Int × Int)) : Array (Int × Int) :=
  let inverse_stage := NLOG2 - 1 - stage
  let stride := 2 ^ stage
  let step := stride * 2
  (List.range stride).foldl
    (fun arr m =>
      let iw := m * 2 ^ inverse_stage
      let wr := sinTable (iw + N / 4) / 2
      let wi := wrapI16 (-(sinTable iw)) / 2
      (step_by m N step).foldl (fun a i => butterfly wr wi a i (i + stride)) arr)
    arr0

/-- `radix2` of `fft/imp.rs`, for a buffer of `N = 2^NLOG2` complex `i16`
bins: bit-reversal re-ordering followed by the `NLOG2` butterfly stages (the
source unrolls the stage calls `run_stage::<0> … run_stage::<N_LOG2 - 1>`).
The sine table (a build-time constant of `3N/4` `i16` entries) is a
parameter. -/
def radix2 (sinTable : Nat → Int) (NLOG2 : Nat) (f : Array (Int × Int)) :
    Array (Int × Int) :=
  let N := 2 ^ NLOG2
  let fr := ((List.range' 1 (N - 1)).foldl (bitrev_step N) (0, f)).2
  (List.range NLOG2).foldl (fun a stage => run_stage sinTable NLOG2 N stage a) fr

lemma getD_mkArray_zero (n k : Nat) :
    (Array.mkArray n ((0:Int),(0:Int))).getD k (0,0) = (0,0) := by
  unfold Array.getD
  split <;> simp

lemma setD_mkArray_zero (n i : Nat) :
    (Array.mkArray n ((0:Int), (0:Int))).setD i (0,0) = Array.mkArray n (0,0) := by
  apply Array.ext
  · simp
  · intro k h1 h2
    simp only [Array.setD]
    split
    · rw [Array.getElem_set]
      split <;> simp
    · rfl

lemma aswap_mkArray_zero (n i j : Nat) :
    aswap (Array.mkArray n ((0:Int),(0:Int))) i j = Array.mkArray n (0,0) := by
  unfold aswap
  simp only [getD_mkArray_zero, setD_mkArray_zero]

lemma butterfly_mkArray_zero (wr wi : Int) (n i j : Nat) :
    butterfly wr wi (Array.mkArray n ((0:Int),(0:Int))) i j = Array.mkArray n (0,0) := by
  unfold butterfly
  simp only [getD_mkArray_zero]
  have h1 : wrapI16 ((wr * (0:Int) - wi * 0 + 16384) / 32768) = 0 := by
    rw [mul_zero, mul_zero, sub_zero, zero_add]
    decide
  have h2 : wrapI16 ((wr * (0:Int) + wi * 0 + 16384) / 32768) = 0 := by
    rw [mul_zero, mul_zero, add_zero, zero_add]
    decide
  have h3 : ((0:Int) / 2) = 0 := by decide
  rw [h1, h2, h3]
  have h4 : wrapI16 (0 - 0) = 0 := by decide
  have h5 : wrapI16 (0 + 0) = 0 := by decide
  rw [h4, h5, setD_mkArray_zero, setD_mkArray_zero]

lemma foldl_preserve {β α : Type} (P : β → Prop) (f : β → α → β)
    (hf : ∀ b a, P b → P (f b a)) :
    ∀ (l : List α) (b : β), P b → P (l.foldl f b) := by
  intro l
  induction l with
  | nil => intro b hb; exact hb
  | cons x xs ih => intro b hb; exact ih _ (hf b x hb)

theorem radix2_deterministic_and_zero_preserving (sinTable : Nat → Int) (NLOG2 : Nat) :
    (∀ f g : Array (Int × Int), f = g →
       radix2 sinTable NLOG2 f = radix2 sinTable NLOG2 g) ∧
    radix2 sinTable NLOG2 (Array.mkArray (2 ^ NLOG2) (0, 0)) =
      Array.mkArray (2 ^ NLOG2) (0, 0) := by
  constructor
  · intro f g h
    rw [h]
  · unfold radix2
    have hrev : ((List.range' 1 (2 ^ NLOG2 - 1)).foldl (bitrev_step (2 ^ NLOG2))
        (0, Array.mkArray (2 ^ NLOG2) (0, 0))).2 = Array.mkArray (2 ^ NLOG2) (0, 0) :=
      foldl_preserve (fun acc : Nat × Array (Int × Int) =>
          acc.2 = Array.mkArray (2 ^ NLOG2) (0, 0))
        (bitrev_step (2 ^ NLOG2))
        (by
          intro acc m hacc
          unfold bitrev_step
          by_cases hm : m < (acc.1 &&& (isolate_highest_set_bit (2 ^ NLOG2 - 1 - acc.1) - 1)) +
              isolate_highest_set_bit (2 ^ NLOG2 - 1 - acc.1) <;>
            simp only [hm, hacc, aswap_mkArray_zero, reduceIte])
        (List.range' 1 (2 ^ NLOG2 - 1)) (0, Array.mkArray (2 ^ NLOG2) (0, 0)) rfl
    simp only [hrev]
    refine foldl_preserve (fun a => a = Array.mkArray (2 ^ NLOG2) (0, 0)) _ ?_ _ _ rfl
    intro a stage ha
    unfold run_stage
    refine foldl_preserve (fun a => a = Array.mkArray (2 ^ NLOG2) (0, 0)) _ ?_ _ _ ha
    intro b m hb
    refine foldl_preserve (fun a => a = Array.mkArray (2 ^ NLOG2) (0, 0)) _ ?_ _ _ hb
    intro c i hc
    rw [hc]
    exact butterfly_mkArray_zero _ _ _ _ _

/-- Witness for C9's determinism conjunct at a concrete buffer. -/
theorem radix2_deterministic_and_zero_preserving_witness :
    radix2 (fun _ => 0) 1 #[((3:Int), (4:Int)), (5, 6)] =
      radix2 (fun _ => 0) 1 #[((3:Int), (4:Int)), (5, 6)] ∧
    radix2 (fun _ => 0) 1 (Array.mkArray (2 ^ 1) (0, 0)) =
      Array.mkArray (2 ^ 1) (0, 0) :=
  ⟨(radix2_deterministic_and_zero_preserving (fun _ => 0) 1).1 _ _ rfl,
   (radix2_deterministic_and_zero_preserving (fun _ => 0) 1).2⟩

namespace Analysis

/-- `amplitude_squared` from `math.rs`: `re² + im²` as a `u32` (exact for
`i16` components; the checked add cannot overflow). -/
def amplitude_squared (b : Int × Int) : Nat := (b.1 * b.1 + b.2 * b.2).toNat

/-- Bit-by-bit floor square root: try each bit of the result from the most
significant down, keeping a candidate whose square stays at most `n`. -/
def isqrt_go (n : Nat) : Nat → Nat → Nat
  | 0, acc => acc
  | b + 1, acc =>
    let cand := acc + 2 ^ b
    if cand * cand ≤ n then isqrt_go n b cand else isqrt_go n b acc

/-- `amplitude_sqrt` from `math.rs`: the integer square root of a `u32`
(`fixed_sqrt` on `U32F0` is the floor square root; the truncation to `u16`
never loses bits since `√(2^32) ≤ 2^16`).  Computed bit by bit over the 16
result bits, which `amplitude_sqrt_eq_sqrt` below identifies with
`Nat.sqrt` on the whole `u32` domain. -/
def amplitude_sqrt (x : Nat) : Nat := isqrt_go x 16 0

lemma isqrt_go_spec (n : Nat) :
    ∀ b acc, acc * acc ≤ n → n < (acc + 2 ^ b) * (acc + 2 ^ b) →
      isqrt_go n b acc = Nat.sqrt n := by
  intro b
  induction b with
  | zero =>
    intro acc h1 h2
    rw [isqrt_go]
    exact Nat.eq_sqrt.mpr ⟨h1, by simpa using h2⟩
  | succ m ih =>
    intro acc h1 h2
    rw [isqrt_go]
    by_cases hc : (acc + 2 ^ m) * (acc + 2 ^ m) ≤ n
    · rw [if_pos hc]
      refine ih (acc + 2 ^ m) hc ?_
      have : acc + 2 ^ m + 2 ^ m = acc + 2 ^ (m + 1) := by
        rw [pow_succ]; omega
      rw [this]
      exact h2
    · rw [if_neg hc]
      exact ih acc h1 (by omega)

/-- On the `u32` domain of the source function, `amplitude_sqrt` is the floor
square root. -/
lemma amplitude_sqrt_eq_sqrt (x : Nat) (h : x < 4294967296) :
    amplitude_sqrt x = Nat.sqrt x :=
  isqrt_go_spec x 16 0 (by omega) (by norm_num; omega)

/-- Rounded integer division `DivRound::div_round` from `math.rs`
(unsigned case): `(self + by / 2) / by`. -/
def div_round (a b : Nat) : Nat := (a + b / 2) / b

/-- `control::Sample::to_value_in_range(range)` for `u16` values: the base of
the range plus the range's size scaled by the control factor. -/
def to_value_in_range (sens base hi : Nat) : Nat := base + scale_by_u16 (hi - base) sens

/-- The analysis constants of `firmware/src/config.rs` (that config module is
not among the sources at hand; the constants are kept as parameters):
`FREQ_RESOLUTION_X1000`, `analysis::MIN_FREQ`, `analysis::NOISE_FLOOR_AMPLITUDE`,
`analysis::MAX_FREQ`, `analysis::NIGHTCORE` (a `u16` scaling factor) and
`analysis::MAX_PEAKS` (the output capacity). -/
structure AnalysisCfg where
  freqResX1000 : Nat
  minFreq : Nat
  noiseFloor : Nat
  maxFreq : Nat
  nightcore : Nat
  maxPeaks : Nat
  deriving Repr, DecidableEq

/-- The minimum-frequency bin of `find_peaks` step 3:
`(MIN_FREQ * 1000).div_round(FREQ_RESOLUTION_X1000)`. -/
def min_freq_bin (cfg : AnalysisCfg) : Nat := div_round (cfg.minFreq * 1000) cfg.freqResX1000

/-- Squared amplitude of bin `i` of the spectrum (out-of-range reads never
occur in the loops below; the default keeps the function total). -/
def binAmp2 (bins : List (Int × Int)) (i : Nat) : Nat :=
  amplitude_squared (bins.getD i (0, 0))

/-- The ascent loop of `find_peaks` phase 1 (`firmware/src/fft/analysis.rs`
step 1): walk right while the squared amplitude does not drop, starting with
`last = amplitude_squared(bins[i])`; returns the index of the local maximum. -/
def ascend (amp2 : Nat → Nat) (n i last : Nat) : Nat :=
  if i + 1 ≥ n then i
  else if amp2 (i + 1) < last then i
  else ascend amp2 n (i + 1) (amp2 (i + 1))
termination_by n - i
decreasing_by omega

/-- The descent loop of phase 1 (step 2): walk right while the squared
amplitude does not rise; returns the index of the trough. -/
def descend (amp2 : Nat → Nat) (n i last : Nat) : Nat :=
  if i + 1 ≥ n then i
  else if last < amp2 (i + 1) then i
  else descend amp2 n (i + 1) (amp2 (i + 1))
termination_by n - i
decreasing_by omega

lemma le_ascend (amp2 : Nat → Nat) (n : Nat) :
    ∀ fuel i last, n - i ≤ fuel → i ≤ ascend amp2 n i last := by
  intro fuel
  induction fuel with
  | zero =>
    intro i last h
    rw [ascend, if_pos (by omega)]
  | succ m ih =>
    intro i last h
    rw [ascend]
    by_cases h1 : i + 1 ≥ n
    · rw [if_pos h1]
    · rw [if_neg h1]
      by_cases h2 : amp2 (i + 1) < last
      · rw [if_pos h2]
      · rw [if_neg h2]
        exact le_trans (by omega) (ih (i + 1) (amp2 (i + 1)) (by omega))

lemma le_descend (amp2 : Nat → Nat) (n : Nat) :
    ∀ fuel i last, n - i ≤ fuel → i ≤ descend amp2 n i last := by
  intro fuel
  induction fuel with
  | zero =>
    intro i last h
    rw [descend, if_pos (by omega)]
  | succ m ih =>
    intro i last h
    rw [descend]
    by_cases h1 : i + 1 ≥ n
    · rw [if_pos h1]
    · rw [if_neg h1]
      by_cases h2 : last < amp2 (i + 1)
      · rw [if_pos h2]
      · rw [if_neg h2]
        exact le_trans (by omega) (ih (i + 1) (amp2 (i + 1)) (by omega))

/-- When the loop guard admits a further step, the descent moves at least one
bin to the right. -/
lemma lt_descend (amp2 : Nat → Nat) (n i last : Nat)
    (h1 : i + 1 < n) (h2 : amp2 (i + 1) ≤ last) : i < descend amp2 n i last := by
  rw [descend, if_neg (by omega), if_neg (by omega)]
  exact lt_of_lt_of_le (Nat.lt_succ_self i)
    (le_descend amp2 n (n - (i + 1)) (i + 1) (amp2 (i + 1)) (le_refl _))

/-- An ascent that returns its starting index broke immediately: either the
array ends or the right neighbor is strictly smaller than `last`. -/
lemma ascend_stuck (amp2 : Nat → Nat) (n i last : Nat)
    (h : ascend amp2 n i last = i) : i + 1 ≥ n ∨ amp2 (i + 1) < last := by
  by_cases h1 : i + 1 ≥ n
  · exact Or.inl h1
  · by_cases h2 : amp2 (i + 1) < last
    · exact Or.inr h2
    · exfalso
      rw [ascend, if_neg (by omega), if_neg (by omega)] at h
      have := le_ascend amp2 n (n - (i + 1)) (i + 1) (amp2 (i + 1)) (le_refl _)
      omega

/-- The phase-1 progress fact: from any `left` with `left + 1 < n`, the
descent ends strictly to the right of `left`. -/
lemma scan_progress (amp2 : Nat → Nat) (n left : Nat) (h : left + 1 < n) :
    left < descend amp2 n (ascend amp2 n left (amp2 left))
      (amp2 (ascend amp2 n left (amp2 left))) := by
  set c := ascend amp2 n left (amp2 left) with hc
  have hcl : left ≤ c := le_ascend amp2 n (n - left) left (amp2 left) (le_refl _)
  rcases Nat.eq_or_lt_of_le hcl with heq | hlt
  · rcases ascend_stuck amp2 n left (amp2 left) heq.symm with h1 | h1
    · omega
    · rw [← heq]
      exact lt_descend amp2 n left (amp2 left) h (by omega)
  · exact lt_of_lt_of_le hlt
      (le_descend amp2 n (n - c) c (amp2 c) (le_refl _))

/-- Phase 1 of `find_peaks`: scan ascent-then-descent runs left to right from
`FIRST_NON_DC_BIN`, recording each local maximum; the next run starts at the
previous descent's trough. -/
def scan_peaks (amp2 : Nat → Nat) (n left : Nat) : List Nat :=
  if h : left + 1 ≥ n then []
  else
    let center := ascend amp2 n left (amp2 left)
    let right := descend amp2 n center (amp2 center)
    center :: scan_peaks amp2 n right
termination_by n - left
decreasing_by
  have := scan_progress amp2 n left (by omega)
  omega

end Analysis

namespace Analysis

/-- A `Peak` of `firmware/src/fft/analysis.rs`: amplitude, validated nonzero
frequency (Hz, `NonZeroU16`), and phase as a raw `u16` scaling factor. -/
structure Peak where
  amplitude : Nat
  freq : Nat
  phase : Nat
  deriving Repr, DecidableEq

/-- The tail of the highest-peak search of phase 2 step 1: fold over the
remaining scratch peaks (with their positions), skipping consumed ones and
replacing the maximum only on a strictly greater squared amplitude (so the
first of equal amplitudes wins).  The accumulator is
`(position, max_peak_i, max_amplitude_squared)`. -/
def select_fold (amp2 : Nat → Nat) :
    List (Option Nat) → Nat → Nat × Nat × Nat → Nat × Nat × Nat
  | [], _, acc => acc
  | none :: rest, pos, acc => select_fold amp2 rest (pos + 1) acc
  | some i :: rest, pos, acc =>
    if amp2 i > acc.2.2 then select_fold amp2 rest (pos + 1) (pos, i, amp2 i)
    else select_fold amp2 rest (pos + 1) acc

/-- Phase 2 step 1 (`find_peaks`): find the highest non-consumed scratch
peak.  An empty scratch list stops the whole loop (`None`); a consumed first
element seeds the search with index 0 and amplitude 0, exactly as the source
does. -/
def select_max (amp2 : Nat → Nat) (scratch : List (Option Nat)) :
    Option (Nat × Nat × Nat) :=
  match scratch with
  | [] => none
  | first :: rest =>
    let init : Nat × Nat × Nat :=
      match first with
      | some i => (0, i, amp2 i)
      | none => (0, 0, 0)
    some (select_fold amp2 rest 1 init)

/-- The neighbor amplitude of step 6.1:
`bins.get(i)` yields the bin's amplitude, and out-of-range indices duplicate
the center amplitude.  The Rust left index `max_peak_i - 1` is a `usize`
subtraction; it is only evaluated for `max_peak_i` above the (nonnegative)
minimum-frequency bin, so the `Nat` subtraction here agrees with it on every
reachable input. -/
def side_amp (bins : List (Int × Int)) (center i : Nat) : Nat :=
  match bins.get? i with
  | some b => amplitude_sqrt (amplitude_squared b)
  | none => center

/-- Steps 6.1–6.5 of the frequency refinement: compare the two neighbor
amplitudes, normalize so the smaller one reads zero, compute the adjustment
`(large + 1) * resolution / (center + 1) / 2` (the `+1`s are the
divide-by-zero offsets of the source) and apply it toward the larger side.
Returns `(is_positive, adjustment_x1000, real_freq_x1000)`. -/
def refine_freq_x1000 (cfg : AnalysisCfg) (bins : List (Int × Int))
    (center i : Nat) : Bool × Nat × Nat :=
  let s0 := side_amp bins center (i - 1)
  let s1 := side_amp bins center (i + 1)
  let is_positive := s0 < s1
  let small := if is_positive then s0 else s1
  let large := if is_positive then s1 else s0
  let centerOff := center - small + 1
  let largeOff := large - small + 1
  let adj := largeOff * cfg.freqResX1000 / centerOff / 2
  let cf := i * cfg.freqResX1000
  (is_positive, adj, if is_positive then cf + adj else cf - adj)

/-- Steps 6.5–6.7: round the ×1000 frequency to Hz, truncate to `u16`
(a wrapping cast in release builds), apply the nightcore multiplier (a
wrapping `u16` addition), and validate: `none` when the result exceeds
`MAX_FREQ` or rounds to zero. -/
def finish_freq (cfg : AnalysisCfg) (fx1000 : Nat) : Option Nat :=
  let f0 := div_round fx1000 1000
  let f1 := f0 % 65536
  let f2 := (f1 + scale_by_u16 f1 cfg.nightcore) % 65536
  if f2 > cfg.maxFreq then none
  else if f2 = 0 then none
  else some f2

/-- Phase 2 of `find_peaks` (`firmware/src/fft/analysis.rs`): one iteration
per output slot (`fuel` counts the remaining capacity).  Each iteration
selects and consumes the highest unconsumed scratch peak, `continue`s past
peaks at or below the minimum-frequency bin, `break`s below the absolute
noise floor, `break`s below the sensitivity threshold for the second and
later peaks, records the first peak's amplitude as the cycle's highest,
refines the frequency, and stores the peak only when the refined frequency
validates. -/
def phase2 (cfg : AnalysisCfg) (phase_fn : Int × Int → Nat)
    (bins : List (Int × Int)) (sens : Nat) :
    Nat → List (Option Nat) → Option Nat → List Peak → List Peak
  | 0, _, _, out => out
  | fuel + 1, scratch, absHighest, out =>
    match select_max (binAmp2 bins) scratch with
    | none => out
    | some sel =>
      let scratch' := scratch.set sel.1 none
      if sel.2.1 ≤ min_freq_bin cfg then
        phase2 cfg phase_fn bins sens fuel scratch' absHighest out
      else
        let max_amp := amplitude_sqrt sel.2.2
        if max_amp < cfg.noiseFloor then out
        else
          let cull :=
            match absHighest with
            | none => false
            | some h => decide (max_amp < to_value_in_range sens cfg.noiseFloor h)
          if cull then out
          else
            let absHighest' :=
              match absHighest with
              | none => some max_amp
              | some h => some h
            let bin := bins.getD sel.2.1 (0, 0)
            let out' :=
              match finish_freq cfg (refine_freq_x1000 cfg bins max_amp sel.2.1).2.2 with
              | none => out
              | some fr =>
                out ++ [{ amplitude := amplitude_sqrt (amplitude_squared bin),
                          freq := fr, phase := phase_fn bin }]
            phase2 cfg phase_fn bins sens fuel scratch' absHighest' out'

/-- `find_peaks` of `firmware/src/fft/analysis.rs`: phase 1 produces the
scratch peaks (every center index is nonzero, and bin indices fit in `u16`
by the compile-time assertion, so `ScratchPeak::new` never yields a consumed
entry), phase 2 extracts up to `MAX_PEAKS` of them.  The phase of each stored
peak is read off the bin through `phase_fn`, the embedding of the external
`cordic` fixed-point `atan2` of `math.rs::phase`. -/
def find_peaks (cfg : AnalysisCfg) (phase_fn : Int × Int → Nat)
    (bins : List (Int × Int)) (sens : Nat) : List Peak :=
  let scratch := (scan_peaks (binAmp2 bins) bins.length 1).map some
  phase2 cfg phase_fn bins sens cfg.maxPeaks scratch none []

end Analysis

lemma finish_freq_valid (cfg : Analysis.AnalysisCfg) (x fr : Nat)
    (h : Analysis.finish_freq cfg x = some fr) : 0 < fr ∧ fr ≤ cfg.maxFreq := by
  simp only [Analysis.finish_freq] at h
  split at h
  · exact absurd h (by simp)
  · split at h
    · exact absurd h (by simp)
    · rename_i h1 h2
      rw [Option.some.injEq] at h
      omega

lemma phase2_valid (cfg : Analysis.AnalysisCfg)
    (phase_fn : Int × Int → Nat) (bins : List (Int × Int)) (sens : Nat) :
    ∀ fuel scratch absHighest out,
      (∀ pk ∈ out, 0 < pk.freq ∧ pk.freq ≤ cfg.maxFreq) →
      ∀ pk ∈ Analysis.phase2 cfg phase_fn bins sens fuel scratch absHighest out,
        0 < pk.freq ∧ pk.freq ≤ cfg.maxFreq := by
  intro fuel
  induction fuel with
  | zero =>
    intro scratch absH out hout
    simpa [Analysis.phase2] using hout
  | succ m ih =>
    intro scratch absH out hout
    cases hsel : Analysis.select_max (Analysis.binAmp2 bins) scratch with
    | none =>
      rw [Analysis.phase2, hsel]
      exact hout
    | some sel =>
      rw [Analysis.phase2, hsel]
      simp only []
      by_cases hmin : sel.2.1 ≤ Analysis.min_freq_bin cfg
      · rw [if_pos hmin]
        exact ih _ _ _ hout
      · rw [if_neg hmin]
        by_cases hfloor : Analysis.amplitude_sqrt sel.2.2 < cfg.noiseFloor
        · rw [if_pos hfloor]
          exact hout
        · rw [if_neg hfloor]
          by_cases hcull : (match absH with
              | none => false
              | some h => decide (Analysis.amplitude_sqrt sel.2.2 <
                  Analysis.to_value_in_range sens cfg.noiseFloor h)) = true
          · rw [if_pos hcull]
            exact hout
          · rw [if_neg hcull]
            refine ih _ _ _ ?_
            cases hf : Analysis.finish_freq cfg
                (Analysis.refine_freq_x1000 cfg bins
                  (Analysis.amplitude_sqrt sel.2.2) sel.2.1).2.2 with
            | none => simpa [hf] using hout
            | some fr =>
              simp only [hf]
              intro pk hpk
              rcases List.mem_append.mp hpk with hl | hr
              · exact hout pk hl
              · rw [List.mem_singleton] at hr
                subst hr
                exact finish_freq_valid cfg _ fr hf

/-- C7: every peak stored into the bounded output list by `find_peaks` has a
validated frequency, strictly positive and at most the configured maximum;
candidates whose refined frequency (after the nightcore multiplier) exceeds
the maximum or rounds to zero are skipped and never stored.  Stated for the
storing loop from any starting state whose accumulated output is validated,
and for `find_peaks` itself. -/
theorem find_peaks_stores_validated_frequencies (cfg : Analysis.AnalysisCfg)
    (phase_fn : Int × Int → Nat) (bins : List (Int × Int)) (sens : Nat) :
    (∀ fuel scratch absHighest out,
       (∀ pk ∈ out, 0 < pk.freq ∧ pk.freq ≤ cfg.maxFreq) →
       ∀ pk ∈ Analysis.phase2 cfg phase_fn bins sens fuel scratch absHighest out,
         0 < pk.freq ∧ pk.freq ≤ cfg.maxFreq) ∧
    ∀ pk ∈ Analysis.find_peaks cfg phase_fn bins sens,
      0 < pk.freq ∧ pk.freq ≤ cfg.maxFreq := by
  refine ⟨phase2_valid cfg phase_fn bins sens, ?_⟩
  intro pk hpk
  exact phase2_valid cfg phase_fn bins sens cfg.maxPeaks _ none [] (by simp) pk hpk

/-- Witness for C7: a concrete run of the storing loop on a spectrum with one
strong bin stores the single peak `⟨200, 3 Hz, 0⟩`, whose frequency is
validated. -/
theorem find_peaks_stores_validated_frequencies_witness :
    0 < (Analysis.Peak.mk 200 3 0).freq ∧
      (Analysis.Peak.mk 200 3 0).freq ≤
        (Analysis.AnalysisCfg.mk 1000 1 100 1000 0 8).maxFreq :=
  (find_peaks_stores_validated_frequencies (Analysis.AnalysisCfg.mk 1000 1 100 1000 0 8)
      (fun _ => 0) [(0, 0), (0, 0), (0, 0), (200, 0), (0, 0), (0, 0), (0, 0), (0, 0)] 0).1
    8 [some 3] none [] (by simp) (Analysis.Peak.mk 200 3 0) (by decide)

lemma scan_peaks_length (amp2 : Nat → Nat) (n : Nat) :
    ∀ fuel left, n - left ≤ fuel → (Analysis.scan_peaks amp2 n left).length ≤ n - left := by
  intro fuel
  induction fuel with
  | zero =>
    intro left h
    rw [Analysis.scan_peaks, dif_pos (by omega)]
    simp
  | succ m ih =>
    intro left h
    by_cases hg : left + 1 ≥ n
    · rw [Analysis.scan_peaks, dif_pos hg]
      simp
    · rw [Analysis.scan_peaks, dif_neg hg]
      have hpr := Analysis.scan_progress amp2 n left (by omega)
      have := ih (Analysis.descend amp2 n (Analysis.ascend amp2 n left (amp2 left))
        (amp2 (Analysis.ascend amp2 n left (amp2 left)))) (by omega)
      simp only [List.length_cons]
      omega

/-- C10: the ascent-then-descent ridge scan of `find_peaks` phase 1
terminates on every input: whenever the outer loop runs (`left + 1 < n`),
the iteration's descent ends strictly to the right of where its ascent
started, so the scan position strictly increases, the loop executes at most
`bins.len()` iterations, and at most that many scratch peaks are pushed. -/
theorem ridge_scan_terminates (amp2 : Nat → Nat) (n : Nat) :
    (∀ left, left + 1 < n →
       left < Analysis.descend amp2 n (Analysis.ascend amp2 n left (amp2 left))
         (amp2 (Analysis.ascend amp2 n left (amp2 left)))) ∧
    ∀ left, (Analysis.scan_peaks amp2 n left).length ≤ n - left := by
  constructor
  · intro left h
    exact Analysis.scan_progress amp2 n left h
  · intro left
    exact scan_peaks_length amp2 n (n - left) left (le_refl _)

/-- Witness for C10 on a small concrete spectrum shape. -/
theorem ridge_scan_terminates_witness :
    (1 + 1 < 4 ∧
      1 < Analysis.descend (fun i => [0, 1, 2, 1].getD i 0) 4
        (Analysis.ascend (fun i => [0, 1, 2, 1].getD i 0) 4 1
          ([0, 1, 2, 1].getD 1 0))
        ((fun i => [0, 1, 2, 1].getD i 0)
          (Analysis.ascend (fun i => [0, 1, 2, 1].getD i 0) 4 1
            ([0, 1, 2, 1].getD 1 0)))) ∧
    (Analysis.scan_peaks (fun i => [0, 1, 2, 1].getD i 0) 4 1).length ≤ 4 - 1 :=
  ⟨⟨by decide, (ridge_scan_terminates (fun i => [0, 1, 2, 1].getD i 0) 4).1 1 (by decide)⟩,
   (ridge_scan_terminates (fun i => [0, 1, 2, 1].getD i 0) 4).2 1⟩

/-! ## C6: frequency refinement stays within half a bin -/

lemma ascend_break (amp2 : Nat → Nat) (n : Nat) :
    ∀ fuel i, n - i ≤ fuel →
      Analysis.ascend amp2 n i (amp2 i) + 1 ≥ n ∨
      amp2 (Analysis.ascend amp2 n i (amp2 i) + 1) < amp2 (Analysis.ascend amp2 n i (amp2 i)) := by
  intro fuel
  induction fuel with
  | zero =>
    intro i h
    rw [Analysis.ascend, if_pos (by omega)]
    omega
  | succ m ih =>
    intro i h
    by_cases h1 : i + 1 ≥ n
    · rw [Analysis.ascend, if_pos h1]
      omega
    · by_cases h2 : amp2 (i + 1) < amp2 i
      · rw [Analysis.ascend, if_neg (by omega), if_pos h2]
        omega
      · rw [Analysis.ascend, if_neg (by omega), if_neg h2]
        exact ih (i + 1) (by omega)

lemma ascend_left_step (amp2 : Nat → Nat) (n : Nat) :
    ∀ fuel i, n - i ≤ fuel →
      Analysis.ascend amp2 n i (amp2 i) = i ∨
      amp2 (Analysis.ascend amp2 n i (amp2 i) - 1) ≤ amp2 (Analysis.ascend amp2 n i (amp2 i)) := by
  intro fuel
  induction fuel with
  | zero =>
    intro i h
    rw [Analysis.ascend, if_pos (by omega)]
    exact Or.inl rfl
  | succ m ih =>
    intro i h
    by_cases h1 : i + 1 ≥ n
    · rw [Analysis.ascend, if_pos h1]
      exact Or.inl rfl
    · by_cases h2 : amp2 (i + 1) < amp2 i
      · rw [Analysis.ascend, if_neg (by omega), if_pos h2]
        exact Or.inl rfl
      · rw [Analysis.ascend, if_neg (by omega), if_neg h2]
        rcases ih (i + 1) (by omega) with heq | hle
        · rw [heq]
          simp only [Nat.add_sub_cancel]
          exact Or.inr (by omega)
        · exact Or.inr hle

lemma descend_break (amp2 : Nat → Nat) (n : Nat) :
    ∀ fuel i, n - i ≤ fuel →
      Analysis.descend amp2 n i (amp2 i) + 1 ≥ n ∨
      amp2 (Analysis.descend amp2 n i (amp2 i)) <
        amp2 (Analysis.descend amp2 n i (amp2 i) + 1) := by
  intro fuel
  induction fuel with
  | zero =>
    intro i h
    rw [Analysis.descend, if_pos (by omega)]
    omega
  | succ m ih =>
    intro i h
    by_cases h1 : i + 1 ≥ n
    · rw [Analysis.descend, if_pos h1]
      omega
    · by_cases h2 : amp2 i < amp2 (i + 1)
      · rw [Analysis.descend, if_neg (by omega), if_pos h2]
        omega
      · rw [Analysis.descend, if_neg (by omega), if_neg h2]
        exact ih (i + 1) (by omega)

lemma scan_centers_props (amp2 : Nat → Nat) (n : Nat) :
    ∀ fuel left, n - left ≤ fuel →
      (left + 1 < n → amp2 left < amp2 (left + 1)) →
      ∀ c ∈ Analysis.scan_peaks amp2 n left,
        (c + 1 ≥ n ∨ amp2 (c + 1) < amp2 c) ∧ amp2 (c - 1) ≤ amp2 c := by
  intro fuel
  induction fuel with
  | zero =>
    intro left hf _ c hc
    rw [Analysis.scan_peaks, dif_pos (by omega)] at hc
    exact absurd hc (List.not_mem_nil c)
  | succ m ih =>
    intro left hf hknow c hc
    by_cases hg : left + 1 ≥ n
    · rw [Analysis.scan_peaks, dif_pos hg] at hc
      exact absurd hc (List.not_mem_nil c)
    · rw [Analysis.scan_peaks, dif_neg hg] at hc
      have hstep : amp2 left < amp2 (left + 1) := hknow (by omega)
      have hexp : Analysis.ascend amp2 n left (amp2 left) =
          Analysis.ascend amp2 n (left + 1) (amp2 (left + 1)) := by
        rw [Analysis.ascend, if_neg (by omega), if_neg (by omega)]
      rcases List.mem_cons.mp hc with rfl | htail
      · constructor
        · exact ascend_break amp2 n (n - left) left (le_refl _)
        · rw [hexp]
          rcases ascend_left_step amp2 n (n - (left + 1)) (left + 1) (le_refl _) with heq | hle
          · rw [heq]
            simpa using le_of_lt hstep
          · exact hle
      · have hpr := Analysis.scan_progress amp2 n left (by omega)
        refine ih (Analysis.descend amp2 n (Analysis.ascend amp2 n left (amp2 left))
            (amp2 (Analysis.ascend amp2 n left (amp2 left)))) (by omega) ?_ c htail
        intro hlt
        rcases descend_break amp2 n (n - Analysis.ascend amp2 n left (amp2 left))
            (Analysis.ascend amp2 n left (amp2 left)) (le_refl _) with hge | hbk
        · omega
        · exact hbk

/-- The center properties available for every phase-1 scratch peak of the
real scan (which starts at `FIRST_NON_DC_BIN = 1`): the right neighbor is
strictly smaller (or absent), and for centers past bin 1 the left neighbor
is no larger. -/
lemma scan_centers_top (amp2 : Nat → Nat) (n : Nat) :
    ∀ c ∈ Analysis.scan_peaks amp2 n 1,
      (c + 1 ≥ n ∨ amp2 (c + 1) < amp2 c) ∧ (2 ≤ c → amp2 (c - 1) ≤ amp2 c) := by
  intro c hc
  by_cases hg : 1 + 1 ≥ n
  · rw [Analysis.scan_peaks, dif_pos hg] at hc
    exact absurd hc (List.not_mem_nil c)
  · rw [Analysis.scan_peaks, dif_neg hg] at hc
    rcases List.mem_cons.mp hc with rfl | htail
    · refine ⟨ascend_break amp2 n (n - 1) 1 (le_refl _), ?_⟩
      intro h2
      rcases ascend_left_step amp2 n (n - 1) 1 (le_refl _) with heq | hle
      · omega
      · exact hle
    · have hpr := Analysis.scan_progress amp2 n 1 (by omega)
      have := scan_centers_props amp2 n
        (n - Analysis.descend amp2 n (Analysis.ascend amp2 n 1 (amp2 1))
          (amp2 (Analysis.ascend amp2 n 1 (amp2 1))))
        (Analysis.descend amp2 n (Analysis.ascend amp2 n 1 (amp2 1))
          (amp2 (Analysis.ascend amp2 n 1 (amp2 1)))) (le_refl _)
        (by
          intro hlt
          rcases descend_break amp2 n (n - Analysis.ascend amp2 n 1 (amp2 1))
              (Analysis.ascend amp2 n 1 (amp2 1)) (le_refl _) with hge | hbk
          · omega
          · exact hbk) c htail
      exact ⟨this.1, fun _ => this.2⟩

/-- A bin whose components are in `i16` range, as the Rust `Complex<i16>`
type guarantees. -/
def i16bin (b : Int × Int) : Prop :=
  -32768 ≤ b.1 ∧ b.1 ≤ 32767 ∧ -32768 ≤ b.2 ∧ b.2 ≤ 32767

instance (b : Int × Int) : Decidable (i16bin b) := by
  unfold i16bin
  infer_instance

lemma amplitude_squared_lt_u32 (b : Int × Int) (h : i16bin b) :
    Analysis.amplitude_squared b < 4294967296 := by
  obtain ⟨h1, h2, h3, h4⟩ := h
  unfold Analysis.amplitude_squared
  have hb1 : b.1 * b.1 ≤ 32768 * 32768 := by nlinarith
  have hb2 : b.2 * b.2 ≤ 32768 * 32768 := by nlinarith
  have hp1 : 0 ≤ b.1 * b.1 := mul_self_nonneg _
  have hp2 : 0 ≤ b.2 * b.2 := mul_self_nonneg _
  omega

lemma getD_i16bin (bins : List (Int × Int)) (hbins : ∀ b ∈ bins, i16bin b) (i : Nat) :
    i16bin (bins.getD i (0, 0)) := by
  rw [List.getD_eq_getElem?_getD]
  cases hg : bins[i]? with
  | none => simp [i16bin]
  | some b =>
    simp only [Option.getD_some]
    exact hbins b (List.getElem?_mem hg)

lemma amplitude_sqrt_mono (a b : Nat) (ha : a < 4294967296) (hb : b < 4294967296)
    (h : a ≤ b) : Analysis.amplitude_sqrt a ≤ Analysis.amplitude_sqrt b := by
  rw [Analysis.amplitude_sqrt_eq_sqrt a ha, Analysis.amplitude_sqrt_eq_sqrt b hb]
  exact Nat.sqrt_le_sqrt h

/-- The neighbor-domination facts needed by the refinement, for a center bin
whose neighbors' squared amplitudes do not exceed its own. -/
lemma side_amp_le_center (bins : List (Int × Int)) (hbins : ∀ b ∈ bins, i16bin b)
    (c j : Nat) (hj : j < bins.length → Analysis.binAmp2 bins j ≤ Analysis.binAmp2 bins c) :
    Analysis.side_amp bins (Analysis.amplitude_sqrt (Analysis.binAmp2 bins c)) j ≤
      Analysis.amplitude_sqrt (Analysis.binAmp2 bins c) := by
  unfold Analysis.side_amp
  cases hg : bins.get? j with
  | none => exact le_refl _
  | some b =>
    have hjlen : j < bins.length := by
      by_contra hcon
      rw [List.get?_eq_none.mpr (by omega)] at hg
      exact absurd hg (by simp)
    have hbj : bins.getD j (0, 0) = b := by
      rw [List.getD_eq_getElem?_getD, ← List.get?_eq_getElem?, hg]
      rfl
    have h1 : Analysis.amplitude_squared b = Analysis.binAmp2 bins j := by
      rw [Analysis.binAmp2, hbj]
    simp only [h1]
    exact amplitude_sqrt_mono _ _
      (by rw [← h1]; exact amplitude_squared_lt_u32 _ (by rw [← hbj]; exact getD_i16bin bins hbins j))
      (amplitude_squared_lt_u32 _ (getD_i16bin bins hbins c))
      (hj hjlen)

lemma adj_le_half (R small large center : Nat) (hl : large ≤ center) (hs : small ≤ large) :
    (large - small + 1) * R / (center - small + 1) / 2 ≤ R / 2 := by
  have hle : large - small + 1 ≤ center - small + 1 := by omega
  calc (large - small + 1) * R / (center - small + 1) / 2
      ≤ (center - small + 1) * R / (center - small + 1) / 2 :=
        Nat.div_le_div_right (Nat.div_le_div_right (Nat.mul_le_mul_right _ hle))
    _ = R / 2 := by rw [Nat.mul_div_cancel_left _ (by omega : 0 < center - small + 1)]

lemma refine_adjustment_le_half (cfg : Analysis.AnalysisCfg) (bins : List (Int × Int))
    (center i : Nat)
    (h0 : Analysis.side_amp bins center (i - 1) ≤ center)
    (h1 : Analysis.side_amp bins center (i + 1) ≤ center) :
    (Analysis.refine_freq_x1000 cfg bins center i).2.1 ≤ cfg.freqResX1000 / 2 := by
  simp only [Analysis.refine_freq_x1000]
  set s0 := Analysis.side_amp bins center (i - 1) with hs0
  set s1 := Analysis.side_amp bins center (i + 1) with hs1
  by_cases hdir : s0 < s1 <;> simp only [hdir, reduceIte]
  · exact adj_le_half cfg.freqResX1000 s0 s1 center h1 (by omega)
  · exact adj_le_half cfg.freqResX1000 s1 s0 center h0 (by omega)

/-- C6: for every peak processed by `find_peaks`, the refined ×1000 frequency
before the nightcore multiplier lies within half a bin's resolution of the
peak bin's nominal frequency.  Conjunct 1: every phase-1 scratch center past
bin 1 (hence every peak surviving a positive minimum-frequency cull) has both
neighbor amplitudes at most the center amplitude (duplicating the center at
array boundaries); conjunct 2: under that domination the fractional
adjustment `(large + 1) * resolution / (center + 1) / 2`, signed toward the
larger neighbor, never exceeds half a bin, and the refined ×1000 frequency
stays within half a bin of `bin index × resolution`. -/
theorem refined_frequency_within_half_bin (cfg : Analysis.AnalysisCfg)
    (bins : List (Int × Int)) (hbins : ∀ b ∈ bins, i16bin b) :
    (∀ c ∈ Analysis.scan_peaks (Analysis.binAmp2 bins) bins.length 1, 2 ≤ c →
       Analysis.side_amp bins (Analysis.amplitude_sqrt (Analysis.binAmp2 bins c)) (c - 1) ≤
         Analysis.amplitude_sqrt (Analysis.binAmp2 bins c) ∧
       Analysis.side_amp bins (Analysis.amplitude_sqrt (Analysis.binAmp2 bins c)) (c + 1) ≤
         Analysis.amplitude_sqrt (Analysis.binAmp2 bins c)) ∧
    (∀ center i, 1 ≤ i →
       Analysis.side_amp bins center (i - 1) ≤ center →
       Analysis.side_amp bins center (i + 1) ≤ center →
       (Analysis.refine_freq_x1000 cfg bins center i).2.1 ≤ cfg.freqResX1000 / 2 ∧
       i * cfg.freqResX1000 - cfg.freqResX1000 / 2 ≤
         (Analysis.refine_freq_x1000 cfg bins center i).2.2 ∧
       (Analysis.refine_freq_x1000 cfg bins center i).2.2 ≤
         i * cfg.freqResX1000 + cfg.freqResX1000 / 2) := by
  constructor
  · intro c hc h2c
    obtain ⟨hr, hl⟩ := scan_centers_top (Analysis.binAmp2 bins) bins.length c hc
    constructor
    · exact side_amp_le_center bins hbins c (c - 1) (fun _ => hl h2c)
    · refine side_amp_le_center bins hbins c (c + 1) (fun hlen => ?_)
      rcases hr with hge | hlt
      · omega
      · exact le_of_lt hlt
  · intro center i hi h0 h1
    refine ⟨refine_adjustment_le_half cfg bins center i h0 h1, ?_⟩
    have hadj := refine_adjustment_le_half cfg bins center i h0 h1
    simp only [Analysis.refine_freq_x1000] at hadj ⊢
    by_cases hdir : Analysis.side_amp bins center (i - 1) <
        Analysis.side_amp bins center (i + 1) <;>
      simp only [hdir, reduceIte] at hadj ⊢
    · exact ⟨le_trans (Nat.sub_le _ _) (Nat.le_add_right _ _),
        Nat.add_le_add_left hadj _⟩
    · exact ⟨Nat.sub_le_sub_left hadj _,
        le_trans (Nat.sub_le _ _) (Nat.le_add_right _ _)⟩

/-- Witness for C6 at a concrete spike spectrum (center bin 3). -/
theorem refined_frequency_within_half_bin_witness :
    (Analysis.refine_freq_x1000 (Analysis.AnalysisCfg.mk 1000 1 100 1000 0 8)
        [(0, 0), (0, 0), (0, 0), (200, 0), (0, 0), (0, 0), (0, 0), (0, 0)] 200 3).2.1 ≤
      1000 / 2 ∧
    3 * 1000 - 1000 / 2 ≤
      (Analysis.refine_freq_x1000 (Analysis.AnalysisCfg.mk 1000 1 100 1000 0 8)
        [(0, 0), (0, 0), (0, 0), (200, 0), (0, 0), (0, 0), (0, 0), (0, 0)] 200 3).2.2 ∧
    (Analysis.refine_freq_x1000 (Analysis.AnalysisCfg.mk 1000 1 100 1000 0 8)
        [(0, 0), (0, 0), (0, 0), (200, 0), (0, 0), (0, 0), (0, 0), (0, 0)] 200 3).2.2 ≤
      3 * 1000 + 1000 / 2 :=
  (refined_frequency_within_half_bin (Analysis.AnalysisCfg.mk 1000 1 100 1000 0 8)
      [(0, 0), (0, 0), (0, 0), (200, 0), (0, 0), (0, 0), (0, 0), (0, 0)]
      (by decide)).2 200 3 (by decide) (by decide) (by decide)

/-! ## C5: peak culling -/

lemma select_fold_inv (amp2 : Nat → Nat) (S : List (Option Nat)) :
    ∀ rest pos acc, (∀ i : Nat, some i ∈ rest → some i ∈ S) →
      ((acc.2.1 = 0 ∧ acc.2.2 = 0) ∨
        (acc.2.2 = amp2 acc.2.1 ∧ some acc.2.1 ∈ S)) →
      ((Analysis.select_fold amp2 rest pos acc).2.1 = 0 ∧
        (Analysis.select_fold amp2 rest pos acc).2.2 = 0) ∨
      ((Analysis.select_fold amp2 rest pos acc).2.2 =
          amp2 (Analysis.select_fold amp2 rest pos acc).2.1 ∧
        some (Analysis.select_fold amp2 rest pos acc).2.1 ∈ S) := by
  intro rest
  induction rest with
  | nil =>
    intro pos acc _ hacc
    exact hacc
  | cons o rest ih =>
    intro pos acc hsub hacc
    cases o with
    | none =>
      rw [Analysis.select_fold]
      exact ih (pos + 1) acc (fun i hi => hsub i (by simp [hi])) hacc
    | some i =>
      rw [Analysis.select_fold]
      by_cases hgt : amp2 i > acc.2.2
      · rw [if_pos hgt]
        exact ih (pos + 1) (pos, i, amp2 i) (fun j hj => hsub j (by simp [hj]))
          (Or.inr ⟨rfl, hsub i (by simp)⟩)
      · rw [if_neg hgt]
        exact ih (pos + 1) acc (fun j hj => hsub j (by simp [hj])) hacc

lemma select_max_inv (amp2 : Nat → Nat) (scratch : List (Option Nat))
    (sel : Nat × Nat × Nat)
    (h : Analysis.select_max amp2 scratch = some sel) :
    (sel.2.1 = 0 ∧ sel.2.2 = 0) ∨
    (sel.2.2 = amp2 sel.2.1 ∧ some sel.2.1 ∈ scratch) := by
  cases scratch with
  | nil => exact absurd h (by simp [Analysis.select_max])
  | cons first rest =>
    rw [Analysis.select_max.eq_def] at h
    simp only [Option.some.injEq] at h
    subst h
    cases first with
    | none =>
      exact select_fold_inv amp2 (none :: rest) rest 1 (0, 0, 0)
        (fun i hi => by simp [hi]) (Or.inl ⟨rfl, rfl⟩)
    | some i =>
      exact select_fold_inv amp2 (some i :: rest) rest 1 (0, i, amp2 i)
        (fun j hj => by simp [hj]) (Or.inr ⟨rfl, by simp⟩)

lemma ascend_lt (amp2 : Nat → Nat) (n : Nat) :
    ∀ fuel i last, n - i ≤ fuel → i < n → Analysis.ascend amp2 n i last < n := by
  intro fuel
  induction fuel with
  | zero =>
    intro i last hf hi
    rw [Analysis.ascend, if_pos (by omega)]
    exact hi
  | succ m ih =>
    intro i last hf hi
    by_cases h1 : i + 1 ≥ n
    · rw [Analysis.ascend, if_pos h1]; exact hi
    · by_cases h2 : amp2 (i + 1) < last
      · rw [Analysis.ascend, if_neg (by omega), if_pos h2]; exact hi
      · rw [Analysis.ascend, if_neg (by omega), if_neg h2]
        exact ih (i + 1) (amp2 (i + 1)) (by omega) (by omega)

lemma descend_lt (amp2 : Nat → Nat) (n : Nat) :
    ∀ fuel i last, n - i ≤ fuel → i < n → Analysis.descend amp2 n i last < n := by
  intro fuel
  induction fuel with
  | zero =>
    intro i last hf hi
    rw [Analysis.descend, if_pos (by omega)]
    exact hi
  | succ m ih =>
    intro i last hf hi
    by_cases h1 : i + 1 ≥ n
    · rw [Analysis.descend, if_pos h1]; exact hi
    · by_cases h2 : last < amp2 (i + 1)
      · rw [Analysis.descend, if_neg (by omega), if_pos h2]; exact hi
      · rw [Analysis.descend, if_neg (by omega), if_neg h2]
        exact ih (i + 1) (amp2 (i + 1)) (by omega) (by omega)

lemma scan_centers_lt (amp2 : Nat → Nat) (n : Nat) :
    ∀ fuel left, n - left ≤ fuel → ∀ c ∈ Analysis.scan_peaks amp2 n left, c < n := by
  intro fuel
  induction fuel with
  | zero =>
    intro left hf c hc
    rw [Analysis.scan_peaks, dif_pos (by omega)] at hc
    exact absurd hc (List.not_mem_nil c)
  | succ m ih =>
    intro left hf c hc
    by_cases hg : left + 1 ≥ n
    · rw [Analysis.scan_peaks, dif_pos hg] at hc
      exact absurd hc (List.not_mem_nil c)
    · rw [Analysis.scan_peaks, dif_neg hg] at hc
      rcases List.mem_cons.mp hc with rfl | htail
      · exact ascend_lt amp2 n (n - left) left (amp2 left) (le_refl _) (by omega)
      · have hpr := Analysis.scan_progress amp2 n left (by omega)
        exact ih _ (by omega) c htail

lemma phase2_below_floor (cfg : Analysis.AnalysisCfg) (phase_fn : Int × Int → Nat)
    (bins : List (Int × Int)) (sens : Nat)
    (hlow : ∀ j < bins.length,
      Analysis.amplitude_sqrt (Analysis.binAmp2 bins j) < cfg.noiseFloor) :
    ∀ fuel scratch absH out, (∀ i : Nat, some i ∈ scratch → i < bins.length) →
      Analysis.phase2 cfg phase_fn bins sens fuel scratch absH out = out := by
  intro fuel
  induction fuel with
  | zero =>
    intro scratch absH out _
    rfl
  | succ m ih =>
    intro scratch absH out hsc
    cases hsel : Analysis.select_max (Analysis.binAmp2 bins) scratch with
    | none =>
      rw [Analysis.phase2, hsel]
    | some sel =>
      rw [Analysis.phase2, hsel]
      simp only []
      have hsub : ∀ i : Nat, some i ∈ scratch.set sel.1 none → i < bins.length := by
        intro i hi
        rcases List.mem_or_eq_of_mem_set hi with hmem | hcontra
        · exact hsc i hmem
        · exact absurd hcontra (by simp)
      rcases select_max_inv (Analysis.binAmp2 bins) scratch sel hsel with ⟨hz1, hz2⟩ | ⟨ha, hmem⟩
      · rw [if_pos (by omega : sel.2.1 ≤ Analysis.min_freq_bin cfg)]
        exact ih _ absH out hsub
      · by_cases hmin : sel.2.1 ≤ Analysis.min_freq_bin cfg
        · rw [if_pos hmin]
          exact ih _ absH out hsub
        · rw [if_neg hmin]
          rw [if_pos (by rw [ha]; exact hlow sel.2.1 (hsc sel.2.1 hmem))]

lemma find_peaks_below_floor (cfg : Analysis.AnalysisCfg) (phase_fn : Int × Int → Nat)
    (bins : List (Int × Int)) (sens : Nat)
    (hlow : ∀ j < bins.length,
      Analysis.amplitude_sqrt (Analysis.binAmp2 bins j) < cfg.noiseFloor) :
    Analysis.find_peaks cfg phase_fn bins sens = [] := by
  rw [Analysis.find_peaks]
  refine phase2_below_floor cfg phase_fn bins sens hlow _ _ none [] ?_
  intro i hi
  have : i ∈ Analysis.scan_peaks (Analysis.binAmp2 bins) bins.length 1 := by
    rcases List.mem_map.mp hi with ⟨c, hc, hceq⟩
    rw [show c = i from Option.some.injEq c i |>.mp hceq] at hc
    exact hc
  exact scan_centers_lt (Analysis.binAmp2 bins) bins.length (bins.length - 1) 1
    (le_refl _) i this

lemma ascend_spike (amp2 : Nat → Nat) (n k : Nat)
    (hz : ∀ j, j ≠ k → amp2 j = 0) (hA : 0 < amp2 k) (hkn : k + 1 < n) :
    ∀ fuel i, k - i ≤ fuel → i ≤ k → Analysis.ascend amp2 n i (amp2 i) = k := by
  intro fuel
  induction fuel with
  | zero =>
    intro i hf hik
    have : i = k := by omega
    subst this
    rw [Analysis.ascend, if_neg (by omega), if_pos (by rw [hz (i + 1) (by omega)]; omega)]
  | succ m ih =>
    intro i hf hik
    rcases Nat.eq_or_lt_of_le hik with rfl | hlt
    · rw [Analysis.ascend, if_neg (by omega), if_pos (by rw [hz (i + 1) (by omega)]; omega)]
    · have hi0 : amp2 i = 0 := hz i (by omega)
      rw [Analysis.ascend, if_neg (by omega), if_neg (by rw [hi0]; omega)]
      exact ih (i + 1) (by omega) (by omega)

lemma descend_spike (amp2 : Nat → Nat) (n k : Nat)
    (hz : ∀ j, j ≠ k → amp2 j = 0) :
    ∀ fuel j, n - j ≤ fuel → k ≤ j → j < n → Analysis.descend amp2 n j (amp2 j) = n - 1 := by
  intro fuel
  induction fuel with
  | zero =>
    intro j hf hkj hjn
    omega
  | succ m ih =>
    intro j hf hkj hjn
    by_cases hg : j + 1 ≥ n
    · rw [Analysis.descend, if_pos hg]
      omega
    · have hnext : amp2 (j + 1) = 0 := hz (j + 1) (by omega)
      rw [Analysis.descend, if_neg (by omega), if_neg (by rw [hnext]; omega)]
      exact ih (j + 1) (by omega) (by omega) (by omega)

lemma scan_spike (amp2 : Nat → Nat) (n k : Nat)
    (hz : ∀ j, j ≠ k → amp2 j = 0) (hA : 0 < amp2 k)
    (hk2 : 2 ≤ k) (hkn : k + 1 < n) :
    Analysis.scan_peaks amp2 n 1 = [k] := by
  rw [Analysis.scan_peaks, dif_neg (by omega)]
  rw [ascend_spike amp2 n k hz hA hkn (k - 1) 1 (by omega) (by omega)]
  show k :: Analysis.scan_peaks amp2 n (Analysis.descend amp2 n k (amp2 k)) = [k]
  rw [descend_spike amp2 n k hz (n - k) k (by omega) (le_refl _) (by omega)]
  rw [Analysis.scan_peaks, dif_pos (by omega)]

lemma phase2_all_consumed (cfg : Analysis.AnalysisCfg) (phase_fn : Int × Int → Nat)
    (bins : List (Int × Int)) (sens : Nat) :
    ∀ fuel absH out, Analysis.phase2 cfg phase_fn bins sens fuel [none] absH out = out := by
  intro fuel
  induction fuel with
  | zero =>
    intro absH out
    rfl
  | succ m ih =>
    intro absH out
    rw [Analysis.phase2,
      show Analysis.select_max (Analysis.binAmp2 bins) [none] = some (0, 0, 0) from rfl]
    simp only []
    rw [if_pos (Nat.zero_le _)]
    exact ih absH out

/-- C5: the culling rules of `find_peaks` phase 2 (skip at or below the
minimum-frequency bin, stop below the absolute noise floor, stop below the
sensitivity threshold for later peaks) yield in particular: a spectrum with a
single interior bin whose amplitude clears the noise floor (and whose refined
frequency validates) and every other bin zero produces exactly one `Peak`,
and a spectrum entirely below the noise floor produces zero `Peak`s. -/
theorem peak_culling_spike_one_below_floor_none (cfg : Analysis.AnalysisCfg)
    (phase_fn : Int × Int → Nat) (bins : List (Int × Int)) (sens : Nat) :
    (∀ k, 2 ≤ k → k + 1 < bins.length →
       (∀ j < bins.length, j ≠ k → bins.getD j (0, 0) = (0, 0)) →
       0 < Analysis.binAmp2 bins k →
       Analysis.min_freq_bin cfg < k →
       cfg.noiseFloor ≤ Analysis.amplitude_sqrt (Analysis.binAmp2 bins k) →
       (Analysis.finish_freq cfg (Analysis.refine_freq_x1000 cfg bins
           (Analysis.amplitude_sqrt (Analysis.binAmp2 bins k)) k).2.2).isSome = true →
       0 < cfg.maxPeaks →
       (Analysis.find_peaks cfg phase_fn bins sens).length = 1) ∧
    ((∀ j < bins.length,
        Analysis.amplitude_sqrt (Analysis.binAmp2 bins j) < cfg.noiseFloor) →
      Analysis.find_peaks cfg phase_fn bins sens = []) := by
  constructor
  · intro k hk2 hkn hzero hA hminb hfloor hvalid hcap
    have hz : ∀ j, j ≠ k → Analysis.binAmp2 bins j = 0 := by
      intro j hj
      by_cases hjl : j < bins.length
      · rw [Analysis.binAmp2, hzero j hjl hj]
        rfl
      · rw [Analysis.binAmp2, List.getD_eq_default _ _ (by omega)]
        rfl
    rw [Analysis.find_peaks]
    rw [scan_spike (Analysis.binAmp2 bins) bins.length k hz hA hk2 hkn]
    show (Analysis.phase2 cfg phase_fn bins sens cfg.maxPeaks [some k] none []).length = 1
    obtain ⟨m, hm⟩ : ∃ m, cfg.maxPeaks = m + 1 := ⟨cfg.maxPeaks - 1, by omega⟩
    rw [hm]
    rw [Analysis.phase2,
      show Analysis.select_max (Analysis.binAmp2 bins) [some k] =
        some (0, k, Analysis.binAmp2 bins k) from rfl]
    simp only []
    rw [if_neg (by omega : ¬ k ≤ Analysis.min_freq_bin cfg)]
    rw [if_neg (not_lt.mpr hfloor)]
    rw [if_neg Bool.false_ne_true]
    obtain ⟨fr, hfr⟩ := Option.isSome_iff_exists.mp hvalid
    rw [hfr]
    show (Analysis.phase2 cfg phase_fn bins sens m [none]
        (some (Analysis.amplitude_sqrt (Analysis.binAmp2 bins k)))
        [{ amplitude := Analysis.amplitude_sqrt (Analysis.amplitude_squared (bins.getD k (0, 0))),
           freq := fr, phase := phase_fn (bins.getD k (0, 0)) }]).length = 1
    rw [phase2_all_consumed]
    rfl
  · exact find_peaks_below_floor cfg phase_fn bins sens

/-- Witness for C5: a spike at bin 3 of an 8-bin spectrum yields exactly one
peak; a 4-bin spectrum entirely below the floor yields none. -/
theorem peak_culling_spike_one_below_floor_none_witness :
    (Analysis.find_peaks (Analysis.AnalysisCfg.mk 1000 1 100 1000 0 8) (fun _ => 0)
        [(0, 0), (0, 0), (0, 0), (200, 0), (0, 0), (0, 0), (0, 0), (0, 0)] 0).length = 1 ∧
    Analysis.find_peaks (Analysis.AnalysisCfg.mk 1000 1 100 1000 0 8) (fun _ => 0)
        [(0, 0), (5, 0), (3, 0), (0, 0)] 0 = [] :=
  ⟨(peak_culling_spike_one_below_floor_none (Analysis.AnalysisCfg.mk 1000 1 100 1000 0 8)
        (fun _ => 0) [(0, 0), (0, 0), (0, 0), (200, 0), (0, 0), (0, 0), (0, 0), (0, 0)] 0).1
      3 (by decide) (by decide) (by decide) (by decide) (by decide) (by decide)
      (by decide) (by decide),
   (peak_culling_spike_one_below_floor_none (Analysis.AnalysisCfg.mk 1000 1 100 1000 0 8)
        (fun _ => 0) [(0, 0), (5, 0), (3, 0), (0, 0)] 0).2 (by decide)⟩
